import Mathlib

set_option maxRecDepth 8192

/-!
Shallow embedding of the core of `k8s-tools-collection/client-go`
(`tools/cache` and `util/workqueue`) together with proofs of the frozen
claims about it.

Modelling conventions, used throughout:

* Go maps are modelled extensionally as total functions into `Option`
  (a missing key reads as `none`); `map[k] = v` becomes `Function.update`.
  For the rate limiters, whose `failures` map is only ever read with the
  zero default, we model the map as a total function into `ℕ` and
  `delete` as resetting to the default `0`, which is extensionally
  the same as key removal.
* `time.Duration` and Go `int64` values are mathematical integers `ℤ`;
  `math.MaxInt64` is the integer `2^63 - 1`.  The `float64` expression
  `float64(baseDelay.Nanoseconds()) * math.Pow(2, float64(exp))` is a
  multiplication by a power of two, which is exact in the regime guarded
  by the overflow check, so it is embedded as the exact integer
  `baseDelay * 2 ^ exp`.
* Go interface values (`interface{}` objects, nested event handlers,
  child rate limiters) become type parameters or records of functions.
* Mutation becomes explicit state passing: a Go method that mutates its
  receiver is a Lean function returning the updated record.
-/

namespace ClientGo

/-! ## util/workqueue/default_rate_limiters.go: ItemExponentialFailureRateLimiter -/

/-- Integer value of Go's `math.MaxInt64`. -/
def maxInt64 : ℤ := 2 ^ 63 - 1

/-- The float64 value of the constant `math.MaxInt64`: `2^63 - 1` is not
representable in 53 bits of significand and rounds (to nearest) up to
exactly `2^63`.  Go's comparison `backoff > math.MaxInt64` therefore
compares the float backoff against `2^63`, not `2^63 - 1`. -/
def float64MaxInt64 : ℤ := 2 ^ 63

/-- Round a natural number to the nearest multiple of `2^k`, ties to the
even multiple — IEEE-754 round-to-nearest-even restricted to the integers
arising here. -/
def roundEvenNat (n k : ℕ) : ℕ :=
  let q := n / 2 ^ k
  let r := n % 2 ^ k
  let half := 2 ^ k / 2
  if r < half then q * 2 ^ k
  else if half < r then (q + 1) * 2 ^ k
  else if q % 2 = 0 then q * 2 ^ k else (q + 1) * 2 ^ k

/-- Binary digit count with explicit fuel (64 covers the int64 range);
`Nat.log2` is defined by well-founded recursion and does not reduce in
the kernel, so the bit length is computed by structural recursion. -/
def bitLenAux : ℕ → ℕ → ℕ
  | 0, _ => 0
  | fuel + 1, n => if n = 0 then 0 else bitLenAux fuel (n / 2) + 1

/-- Binary length of a natural number in the int64 range. -/
def bitLen (n : ℕ) : ℕ := bitLenAux 64 n

/-- The exact value of `float64(n)` for a natural number `n` in the int64
range: below `2^53` the conversion is exact; above, the value is rounded
to the float64 precision of 53 significant bits (unit in the last place
`2^(bitLen n - 53)`), round-to-nearest-even. -/
def float64OfNat (n : ℕ) : ℕ :=
  if n < 2 ^ 53 then n else roundEvenNat n (bitLen n - 53)

/-- The exact value of Go's `float64(n)` for an int64 `n` (the conversion
is sign-symmetric and never overflows for int64 inputs). -/
def float64OfInt (n : ℤ) : ℤ :=
  if 0 ≤ n then (float64OfNat n.toNat : ℤ) else -(float64OfNat (-n).toNat : ℤ)

/-- A float64 value as it arises in the backoff computation: every finite
value reached is an exactly-representable integer (a ≤ 53-bit significand
scaled by a power of two), so a finite float is carried as its exact
integer value; overflow gives the infinities, and `0 * +Inf` gives NaN. -/
inductive GoFloat where
  | finite (val : ℤ)
  | posInf
  | negInf
  | nan
deriving DecidableEq

/-- The overflow threshold `2^1024`: the smallest magnitude at which the
float64 product overflows to infinity.  Computed through `ℕ` so that
evaluation uses the accelerated natural-number arithmetic. -/
def twoPow1024 : ℤ := ((2 ^ 1024 : ℕ) : ℤ)

theorem twoPow1024_eq : twoPow1024 = 2 ^ 1024 := by
  unfold twoPow1024
  push_cast
  ring

/-- The float64 value of
`float64(baseDelay) * math.Pow(2, float64(exp))`.  Facts of IEEE-754
arithmetic used: `math.Pow(2, e)` is exactly `2^e` for `e ≤ 1023` and
`+Inf` beyond; multiplying a float by a power of two rescales its
exponent, so the product is exact — a finite float times `2^e` is either
exactly representable (magnitude below `2^1024`) or overflows to the
signed infinity; `0 * +Inf` is NaN. -/
def backoffFloat (baseDelay : ℤ) (exp : ℕ) : GoFloat :=
  let b := float64OfInt baseDelay
  if exp ≤ 1023 then
    let p := b * 2 ^ exp
    if twoPow1024 ≤ p then .posInf
    else if p ≤ -twoPow1024 then .negInf
    else .finite p
  else if 0 < b then .posInf
  else if b < 0 then .negInf
  else .nan

/-- The Go comparison `backoff > math.MaxInt64`: the constant converts to
`2^63`; `+Inf` compares greater, `-Inf` and `NaN` do not. -/
def gtMaxInt64 : GoFloat → Bool
  | .finite v => float64MaxInt64 < v
  | .posInf => true
  | .negInf => false
  | .nan => false

/-- The Go conversion `time.Duration(backoff)` (float64 → int64): exact
for in-range values; for out-of-range values (including the infinities
and NaN) the Go specification makes the result implementation-defined,
modelled as `none`. -/
def durationOfFloat : GoFloat → Option ℤ
  | .finite v => if -(2 ^ 63) ≤ v ∧ v ≤ maxInt64 then some v else none
  | _ => none

/-- State of `ItemExponentialFailureRateLimiter` (default_rate_limiters.go):
the per-item failure-count map plus the two configured delays (in
nanoseconds).  The mutex only serialises access and has no extensional
effect, so it is not modelled. -/
structure ItemExponentialFailureRateLimiter (α : Type) where
  failures : α → ℕ
  baseDelay : ℤ
  maxDelay : ℤ

/-- `NewItemExponentialFailureRateLimiter`: fresh limiter with an empty
failures map. -/
def newItemExponentialFailureRateLimiter (baseDelay maxDelay : ℤ) :
    ItemExponentialFailureRateLimiter α :=
  ⟨fun _ => 0, baseDelay, maxDelay⟩

/-- `ItemExponentialFailureRateLimiter.When`: reads the failure count,
increments it, computes the float64 backoff
`float64(baseDelay) * math.Pow(2, float64(exp))`, returns `maxDelay` when
the backoff compares greater than `float64(math.MaxInt64) = 2^63`,
otherwise casts the backoff to `time.Duration` — implementation-defined
(`none`) when the float is out of the int64 range, which is reachable
because the guard misses `backoff = 2^63` exactly — and caps the result
at `maxDelay`.  Returns the delay with the updated state. -/
def expWhen [DecidableEq α] (r : ItemExponentialFailureRateLimiter α) (item : α) :
    Option ℤ × ItemExponentialFailureRateLimiter α :=
  let exp := r.failures item
  let r' : ItemExponentialFailureRateLimiter α :=
    { r with failures := Function.update r.failures item (exp + 1) }
  let backoff : GoFloat := backoffFloat r.baseDelay exp
  if gtMaxInt64 backoff then (some r.maxDelay, r')
  else
    match durationOfFloat backoff with
    | some calculated =>
      if r.maxDelay < calculated then (some r.maxDelay, r') else (some calculated, r')
    | none => (none, r')

/-- `ItemExponentialFailureRateLimiter.NumRequeues`: a pure read of the
failure count (the Go method only reads the map under the lock). -/
def expNumRequeues (r : ItemExponentialFailureRateLimiter α) (item : α) : ℕ :=
  r.failures item

/-- `ItemExponentialFailureRateLimiter.Forget`: deletes the item from the
failures map, i.e. resets its count to the zero default. -/
def expForget [DecidableEq α] (r : ItemExponentialFailureRateLimiter α) (item : α) :
    ItemExponentialFailureRateLimiter α :=
  { r with failures := Function.update r.failures item 0 }

/-- Apply `When` to the same item `n` times, keeping only the state. -/
def expWhenIter [DecidableEq α] (r : ItemExponentialFailureRateLimiter α) (item : α) :
    ℕ → ItemExponentialFailureRateLimiter α
  | 0 => r
  | n + 1 => (expWhen (expWhenIter r item n) item).2

/-- The list of delays returned by `n` successive `When(item)` calls
(`none` marks a call whose return value is implementation-defined). -/
def expWhenSeq [DecidableEq α] (r : ItemExponentialFailureRateLimiter α) (item : α) :
    ℕ → List (Option ℤ)
  | 0 => []
  | n + 1 => expWhenSeq r item n ++ [(expWhen (expWhenIter r item n) item).1]

/-- External operations on the exponential limiter, for stating
stateful-history claims.  `numRequeues` is included to record that a
`NumRequeues` call leaves the state unchanged (the Go method only reads). -/
inductive ExpOp (α : Type) where
  | when (item : α)
  | forget (item : α)
  | numRequeues (item : α)
deriving DecidableEq

/-- Effect of one operation on the limiter state. -/
def applyExpOp [DecidableEq α] (r : ItemExponentialFailureRateLimiter α) :
    ExpOp α → ItemExponentialFailureRateLimiter α
  | .when x => (expWhen r x).2
  | .forget x => expForget r x
  | .numRequeues _ => r

/-- Effect of a whole operation sequence. -/
def applyExpOps [DecidableEq α] (r : ItemExponentialFailureRateLimiter α)
    (ops : List (ExpOp α)) : ItemExponentialFailureRateLimiter α :=
  ops.foldl applyExpOp r

/-- Specification-side counter: the number of `when x` operations in
`ops` that occur after the last `forget x` (all of them when `x` is never
forgotten), starting from count `n`. -/
def countWhenSinceForgetAux [DecidableEq α] (x : α) (ops : List (ExpOp α)) (n : ℕ) : ℕ :=
  ops.foldl
    (fun m op =>
      match op with
      | .when y => if y = x then m + 1 else m
      | .forget y => if y = x then 0 else m
      | .numRequeues _ => m) n

/-- Number of `when x` operations since the most recent `forget x`. -/
def countWhenSinceForget [DecidableEq α] (x : α) (ops : List (ExpOp α)) : ℕ :=
  countWhenSinceForgetAux x ops 0

theorem expWhen_snd [DecidableEq α]
    (r : ItemExponentialFailureRateLimiter α) (x : α) :
    (expWhen r x).2 =
      { r with failures := Function.update r.failures x (r.failures x + 1) } := by
  simp only [expWhen]
  split
  · rfl
  · split
    · split <;> rfl
    · rfl

theorem expWhen_failures_self [DecidableEq α]
    (r : ItemExponentialFailureRateLimiter α) (x : α) :
    (expWhen r x).2.failures x = r.failures x + 1 := by
  rw [expWhen_snd]
  simp [Function.update]

theorem expWhen_failures_other [DecidableEq α]
    (r : ItemExponentialFailureRateLimiter α) (x y : α) (h : y ≠ x) :
    (expWhen r x).2.failures y = r.failures y := by
  rw [expWhen_snd]
  simp [Function.update, h]

theorem expWhen_base [DecidableEq α]
    (r : ItemExponentialFailureRateLimiter α) (x : α) :
    (expWhen r x).2.baseDelay = r.baseDelay ∧ (expWhen r x).2.maxDelay = r.maxDelay := by
  rw [expWhen_snd]
  exact ⟨rfl, rfl⟩

/-- Value of one `When` call, as the claimed `min` formula. -/
theorem float64OfInt_exact (n : ℤ) (h1 : -(2 ^ 53) < n) (h2 : n < 2 ^ 53) :
    float64OfInt n = n := by
  unfold float64OfInt float64OfNat
  split
  · rename_i h0
    rw [if_pos (show n.toNat < 2 ^ 53 by omega)]
    omega
  · rename_i h0
    rw [if_pos (show (-n).toNat < 2 ^ 53 by omega)]
    omega

/-- In the float64-exact regime (`0 < baseDelay < 2^53`, so the base
converts exactly) and away from the guard's blind spot
(`baseDelay * 2^exp ≠ 2^63`), one `When` call returns the claimed
`min(baseDelay * 2^failures, maxDelay)`. -/
theorem expWhen_value_exact [DecidableEq α]
    (r : ItemExponentialFailureRateLimiter α) (x : α)
    (h0 : 0 < r.baseDelay) (h53 : r.baseDelay < 2 ^ 53)
    (hne : r.baseDelay * 2 ^ r.failures x ≠ 2 ^ 63)
    (hmax : r.maxDelay ≤ maxInt64) :
    (expWhen r x).1 = some (min (r.baseDelay * 2 ^ r.failures x) r.maxDelay) := by
  have hb : float64OfInt r.baseDelay = r.baseDelay :=
    float64OfInt_exact r.baseDelay
      (by
        have hp : (0 : ℤ) < 2 ^ 53 := by positivity
        linarith) h53
  have hPpos : 0 < r.baseDelay * 2 ^ r.failures x := by positivity
  have h63lt : maxInt64 < (2 : ℤ) ^ 1024 := by
    unfold maxInt64
    norm_num
  simp only [expWhen]
  by_cases he : r.failures x ≤ 1023
  · by_cases hbig : (2 : ℤ) ^ 1024 ≤ r.baseDelay * 2 ^ r.failures x
    · have hbf : backoffFloat r.baseDelay (r.failures x) = GoFloat.posInf := by
        unfold backoffFloat
        rw [if_pos he, hb, if_pos (by rw [twoPow1024_eq]; exact hbig)]
      rw [hbf]
      have hmin : min (r.baseDelay * 2 ^ r.failures x) r.maxDelay = r.maxDelay :=
        min_eq_right (by linarith)
      rw [hmin]
      rfl
    · have hbf : backoffFloat r.baseDelay (r.failures x) =
          GoFloat.finite (r.baseDelay * 2 ^ r.failures x) := by
        unfold backoffFloat
        rw [if_pos he, hb, if_neg (by rw [twoPow1024_eq]; exact hbig),
          if_neg (by rw [twoPow1024_eq]; linarith)]
      rw [hbf]
      by_cases hgt : float64MaxInt64 < r.baseDelay * 2 ^ r.failures x
      · have hgb : gtMaxInt64 (GoFloat.finite (r.baseDelay * 2 ^ r.failures x)) = true := by
          simp only [gtMaxInt64]
          exact decide_eq_true hgt
        have hmin : min (r.baseDelay * 2 ^ r.failures x) r.maxDelay = r.maxDelay :=
          min_eq_right (by
            unfold float64MaxInt64 at hgt
            unfold maxInt64 at hmax
            linarith)
        rw [hmin]
        simp only [hgb, if_true]
      · have hgb : gtMaxInt64 (GoFloat.finite (r.baseDelay * 2 ^ r.failures x)) = false := by
          simp only [gtMaxInt64]
          exact decide_eq_false hgt
        have hrange : -(2 ^ 63) ≤ r.baseDelay * 2 ^ r.failures x ∧
            r.baseDelay * 2 ^ r.failures x ≤ maxInt64 := by
          constructor
          · linarith
          · unfold float64MaxInt64 at hgt
            unfold maxInt64
            omega
        have hdf : durationOfFloat (GoFloat.finite (r.baseDelay * 2 ^ r.failures x)) =
            some (r.baseDelay * 2 ^ r.failures x) := by
          simp only [durationOfFloat]
          rw [if_pos hrange]
        simp only [hgb, Bool.false_eq_true, if_false, hdf]
        by_cases hcap : r.maxDelay < r.baseDelay * 2 ^ r.failures x
        · rw [min_eq_right (le_of_lt hcap)]
          simp only [if_pos hcap]
        · rw [min_eq_left (le_of_not_lt hcap)]
          simp only [if_neg hcap]
  · have hbf : backoffFloat r.baseDelay (r.failures x) = GoFloat.posInf := by
      unfold backoffFloat
      rw [if_neg he, hb, if_pos h0]
    rw [hbf]
    have hpow : (2 : ℤ) ^ 1024 ≤ 2 ^ r.failures x :=
      pow_le_pow_right₀ (by norm_num) (by omega)
    have hP : (2 : ℤ) ^ 1024 ≤ r.baseDelay * 2 ^ r.failures x := by
      have h1 : (2 : ℤ) ^ r.failures x ≤ r.baseDelay * 2 ^ r.failures x :=
        le_mul_of_one_le_left (by positivity) (by omega)
      linarith
    have hmin : min (r.baseDelay * 2 ^ r.failures x) r.maxDelay = r.maxDelay :=
      min_eq_right (by linarith)
    rw [hmin]
    rfl

/-- A `When` call in a state with failure count zero and a float64-exact
`baseDelay` bounded by `maxDelay` returns exactly `baseDelay`. -/
theorem expWhen_first_exact [DecidableEq α]
    (r : ItemExponentialFailureRateLimiter α) (x : α) (hz : r.failures x = 0)
    (hlo : -(2 ^ 53) < r.baseDelay) (hhi : r.baseDelay < 2 ^ 53)
    (h1 : r.baseDelay ≤ r.maxDelay) :
    (expWhen r x).1 = some r.baseDelay := by
  have hb : float64OfInt r.baseDelay = r.baseDelay := float64OfInt_exact _ hlo hhi
  have h24 : (2 : ℤ) ^ 53 < 2 ^ 1024 := by norm_num
  have h63 : (2 : ℤ) ^ 53 < 2 ^ 63 := by norm_num
  simp only [expWhen]
  rw [hz]
  have hbf : backoffFloat r.baseDelay 0 = GoFloat.finite r.baseDelay := by
    unfold backoffFloat
    rw [if_pos (by omega : (0 : ℕ) ≤ 1023), hb, pow_zero, mul_one]
    rw [if_neg (by rw [twoPow1024_eq]; linarith), if_neg (by rw [twoPow1024_eq]; linarith)]
  rw [hbf]
  have hgb : gtMaxInt64 (GoFloat.finite r.baseDelay) = false := by
    simp only [gtMaxInt64]
    refine decide_eq_false ?_
    unfold float64MaxInt64
    linarith
  have hdf : durationOfFloat (GoFloat.finite r.baseDelay) = some r.baseDelay := by
    simp only [durationOfFloat]
    rw [if_pos ⟨by linarith, by
      unfold maxInt64
      linarith⟩]
  simp only [hgb, Bool.false_eq_true, if_false, hdf]
  simp only [if_neg (not_lt.mpr h1)]

theorem expWhenIter_failures_self [DecidableEq α]
    (r : ItemExponentialFailureRateLimiter α) (x : α) (n : ℕ) :
    (expWhenIter r x n).failures x = r.failures x + n := by
  induction n with
  | zero => rfl
  | succ k ih =>
    simp only [expWhenIter]
    rw [expWhen_failures_self, ih]
    ring

theorem expWhenIter_base [DecidableEq α]
    (r : ItemExponentialFailureRateLimiter α) (x : α) (n : ℕ) :
    (expWhenIter r x n).baseDelay = r.baseDelay ∧
      (expWhenIter r x n).maxDelay = r.maxDelay := by
  induction n with
  | zero => exact ⟨rfl, rfl⟩
  | succ k ih =>
    simp only [expWhenIter]
    rcases expWhen_base (expWhenIter r x k) x with ⟨h1, h2⟩
    exact ⟨h1.trans ih.1, h2.trans ih.2⟩

theorem expWhenIter_failures_eq [DecidableEq α]
    (r : ItemExponentialFailureRateLimiter α) (x : α) (n : ℕ) (h : r.failures x = 0) :
    (expWhenIter r x n).failures x = n := by
  rw [expWhenIter_failures_self, h, Nat.zero_add]

theorem applyExpOps_failures [DecidableEq α]
    (ops : List (ExpOp α)) (r : ItemExponentialFailureRateLimiter α) (x : α) :
    (applyExpOps r ops).failures x = countWhenSinceForgetAux x ops (r.failures x) := by
  induction ops generalizing r with
  | nil => rfl
  | cons op rest ih =>
    cases op with
    | when y =>
      simp only [applyExpOps, List.foldl_cons, applyExpOp, countWhenSinceForgetAux,
        List.foldl_cons] at *
      rw [ih]
      by_cases hyx : y = x
      · subst hyx
        rw [expWhen_failures_self]
        simp
      · rw [expWhen_failures_other _ _ _ (fun hxy => hyx hxy.symm)]
        simp [hyx]
    | forget y =>
      simp only [applyExpOps, List.foldl_cons, applyExpOp, countWhenSinceForgetAux,
        List.foldl_cons] at *
      rw [ih]
      by_cases hyx : y = x
      · subst hyx
        simp [expForget, Function.update]
      · have hxy : x ≠ y := fun h => hyx h.symm
        have : (expForget r y).failures x = r.failures x := by
          simp [expForget, Function.update, hxy]
        rw [this]
        simp [hyx]
    | numRequeues y =>
      simp only [applyExpOps, List.foldl_cons, applyExpOp, countWhenSinceForgetAux,
        List.foldl_cons] at *
      exact ih r

theorem countWhenSinceForgetAux_zero_of_not_mem [DecidableEq α]
    (x : α) (ops : List (ExpOp α)) (h : ExpOp.when x ∉ ops) :
    countWhenSinceForgetAux x ops 0 = 0 := by
  induction ops with
  | nil => rfl
  | cons op rest ih =>
    have hop : op ≠ ExpOp.when x := fun he => h (he ▸ List.mem_cons_self op rest)
    have hrest : ExpOp.when x ∉ rest := fun hm => h (List.mem_cons_of_mem op hm)
    cases op with
    | when y =>
      have hyx : y ≠ x := fun he => hop (by rw [he])
      simp only [countWhenSinceForgetAux, List.foldl_cons]
      simp only [hyx, if_false]
      exact ih hrest
    | forget y =>
      simp only [countWhenSinceForgetAux, List.foldl_cons]
      by_cases hyx : y = x <;> simp only [hyx, if_true, if_false] <;> exact ih hrest
    | numRequeues y =>
      simp only [countWhenSinceForgetAux, List.foldl_cons]
      exact ih hrest

/-- C3 counterexample: with `baseDelay = 1` ns (and `maxDelay = 1000` s),
the 64th `When(x)` computes the float backoff `1.0 * Pow(2, 63) = 2^63`
exactly; the guard compares it against `float64(math.MaxInt64) = 2^63`
and misses it, so the overflow is NOT detected before the cast: the
conversion of the out-of-range float to `time.Duration` is
implementation-defined (modelled `none`), not the claimed
`min(baseDelay * 2^63, maxDelay) = maxDelay`. -/
theorem exponential_when_formula_counterexample :
    (expWhen (expWhenIter
        (newItemExponentialFailureRateLimiter 1 1000000000000 (α := ℕ)) 0 63) 0).1 =
        none ∧
      (expWhen (expWhenIter
        (newItemExponentialFailureRateLimiter 1 1000000000000 (α := ℕ)) 0 63) 0).1 ≠
        some (min ((1 : ℤ) * 2 ^ 63) 1000000000000) :=
  ⟨by decide, by decide⟩

/-- C3 (amended): in the float64-exact regime `0 < baseDelay < 2^53` (so
`float64(baseDelay)` is exact) and away from the guard's blind spot
(`baseDelay * 2^(i-1) ≠ 2^63`), the i-th `When(x)` call with no
intervening `Forget(x)` (modelled as the i-th successive `When(x)` from
any state whose failure count for `x` is zero) returns
`min(baseDelay * 2^(i-1), maxDelay)`; each call increments the failure
count of `x` by exactly one and leaves other items alone; and whenever
the float backoff compares greater than `float64(MaxInt64) = 2^63` the
overflow is detected before the cast and `maxDelay` is returned.  At
`baseDelay * 2^(i-1) = 2^63` exactly the guard misses and the cast of the
out-of-range float is implementation-defined (see the counterexample). -/
theorem exponential_when_formula [DecidableEq α]
    (r : ItemExponentialFailureRateLimiter α) (x : α) (i : ℕ)
    (hfresh : r.failures x = 0) (h0 : 0 < r.baseDelay)
    (h53 : r.baseDelay < 2 ^ 53) (hne : r.baseDelay * 2 ^ (i - 1) ≠ 2 ^ 63)
    (hmax : r.maxDelay ≤ maxInt64) (_hi : 1 ≤ i) :
    (expWhen (expWhenIter r x (i - 1)) x).1 =
        some (min (r.baseDelay * 2 ^ (i - 1)) r.maxDelay) ∧
      (∀ s : ItemExponentialFailureRateLimiter α,
        (expWhen s x).2.failures x = s.failures x + 1 ∧
          ∀ y, y ≠ x → (expWhen s x).2.failures y = s.failures y) ∧
      (∀ s : ItemExponentialFailureRateLimiter α,
        gtMaxInt64 (backoffFloat s.baseDelay (s.failures x)) = true →
          (expWhen s x).1 = some s.maxDelay) := by
  refine ⟨?_, fun s =>
    ⟨expWhen_failures_self s x, fun y hy => expWhen_failures_other s x y hy⟩,
    fun s hov => ?_⟩
  · have hbase := expWhenIter_base r x (i - 1)
    have hcnt := expWhenIter_failures_eq r x (i - 1) hfresh
    have hval := expWhen_value_exact (expWhenIter r x (i - 1)) x
      (hbase.1 ▸ h0) (hbase.1 ▸ h53)
      (by rw [hcnt, hbase.1]; exact hne) (hbase.2 ▸ hmax)
    rw [hval, hcnt, hbase.1, hbase.2]
  · simp only [expWhen, hov, if_true]

/-- C3 witness: the third `When` on a fresh `exponential(5, 1000)` limiter
returns `some (min (5 * 2^2) 1000) = some 20`. -/
theorem exponential_when_formula_witness :
    (expWhen (expWhenIter (newItemExponentialFailureRateLimiter 5 1000 (α := ℕ)) 0 (3 - 1)) 0).1 =
      some (min ((5 : ℤ) * 2 ^ (3 - 1)) 1000) :=
  (exponential_when_formula (newItemExponentialFailureRateLimiter 5 1000) 0 3 rfl
    (by decide) (by decide) (by decide) (by decide) (by decide)).1

/-- C7 counterexample: with `baseDelay = 2^53 + 1` ns and
`maxDelay = 2^60` ns, `float64(baseDelay)` rounds (to nearest even) down
to `2^53`, so the first `When("x")` after a `Forget("x")` returns the
rounded `2^53`, not `baseDelay`: "Forget(x) followed by When(x) returns
baseDelay" fails for this limiter. -/
theorem exponential_forget_resets_counterexample :
    (expWhen (expForget
        (newItemExponentialFailureRateLimiter (2 ^ 53 + 1) (2 ^ 60) (α := ℕ)) 0) 0).1 =
        some (2 ^ 53) ∧
      ((2 : ℤ) ^ 53) ≠ 2 ^ 53 + 1 :=
  ⟨by decide, by decide⟩

/-- C7 (amended): on any limiter whose `baseDelay` is float64-exact
(`|baseDelay| < 2^53`, true of the scenario's 10ms) and bounded by
`maxDelay`, `Forget(x)` followed by `When(x)` returns `baseDelay` — the
same as the first `When(x)` on a fresh limiter with the same
configuration; concretely, on `exponential(10ms, 40ms)` five successive
`When("x")` calls return 10ms, 20ms, 40ms, 40ms, 40ms, and after
`Forget("x")` the next `When("x")` returns 10ms again.  For
`baseDelay ≥ 2^53` the float64 conversion rounds and `When` returns the
rounded value instead (see the counterexample). -/
theorem exponential_forget_resets [DecidableEq α]
    (r : ItemExponentialFailureRateLimiter α) (x : α)
    (hlo : -(2 ^ 53) < r.baseDelay) (hhi : r.baseDelay < 2 ^ 53)
    (h1 : r.baseDelay ≤ r.maxDelay) :
    (expWhen (expForget r x) x).1 = some r.baseDelay ∧
      (expWhen (newItemExponentialFailureRateLimiter r.baseDelay r.maxDelay) x).1 =
        some r.baseDelay ∧
      expWhenSeq (newItemExponentialFailureRateLimiter 10000000 40000000) "x" 5 =
        [some 10000000, some 20000000, some 40000000, some 40000000, some 40000000] ∧
      (expWhen (expForget
          (expWhenIter (newItemExponentialFailureRateLimiter 10000000 40000000) "x" 5) "x")
        "x").1 = some 10000000 := by
  have hforget : (expForget r x).failures x = 0 := by
    simp [expForget, Function.update]
  refine ⟨?_, ?_, by decide, by decide⟩
  · exact expWhen_first_exact (expForget r x) x hforget hlo hhi h1
  · exact expWhen_first_exact (newItemExponentialFailureRateLimiter r.baseDelay r.maxDelay)
      x rfl hlo hhi h1

/-- C7 witness: instantiated at the scenario limiter `exponential(10ms, 40ms)`. -/
theorem exponential_forget_resets_witness :
    (expWhen (expForget (newItemExponentialFailureRateLimiter 10000000 40000000 (α := String))
      "x") "x").1 = some 10000000 :=
  (exponential_forget_resets (newItemExponentialFailureRateLimiter 10000000 40000000) "x"
    (by decide) (by decide) (by decide)).1

/-- C10: after any sequence of limiter operations starting from a fresh
exponential limiter, `NumRequeues(x)` equals the number of `When(x)` calls
since the most recent `Forget(x)` (or since construction when `x` was
never forgotten), and in particular equals 0 when `x` was never passed to
`When`; `NumRequeues` operations themselves leave the state unchanged. -/
theorem exponential_numRequeues_counts [DecidableEq α]
    (base max : ℤ) (ops : List (ExpOp α)) (x : α) :
    expNumRequeues (applyExpOps (newItemExponentialFailureRateLimiter base max) ops) x =
        countWhenSinceForget x ops ∧
      (ExpOp.when x ∉ ops →
        expNumRequeues (applyExpOps (newItemExponentialFailureRateLimiter base max) ops) x
          = 0) ∧
      (∀ r : ItemExponentialFailureRateLimiter α, ∀ y,
        applyExpOp r (ExpOp.numRequeues y) = r) := by
  have hmain : expNumRequeues
      (applyExpOps (newItemExponentialFailureRateLimiter base max) ops) x =
      countWhenSinceForget x ops := by
    unfold expNumRequeues countWhenSinceForget
    rw [applyExpOps_failures]
    rfl
  exact ⟨hmain, fun hnot => by
    rw [hmain]
    exact countWhenSinceForgetAux_zero_of_not_mem x ops hnot, fun r y => rfl⟩

/-- C10 witness: `[When "a", When "a", Forget "a", When "a"]` leaves
`NumRequeues("a") = 1`. -/
theorem exponential_numRequeues_counts_witness :
    expNumRequeues (applyExpOps (newItemExponentialFailureRateLimiter 5 1000 (α := String))
      [ExpOp.when "a", ExpOp.when "a", ExpOp.forget "a", ExpOp.when "a"]) "a" =
      countWhenSinceForget "a"
        [ExpOp.when "a", ExpOp.when "a", ExpOp.forget "a", ExpOp.when "a"] :=
  (exponential_numRequeues_counts 5 1000
    [ExpOp.when "a", ExpOp.when "a", ExpOp.forget "a", ExpOp.when "a"] "a").1

/-! ## util/workqueue/default_rate_limiters.go: MaxOfRateLimiter -/

/-- A value of the Go `RateLimiter` interface: the three methods, with the
receiver's internal state made explicit as a value of type `σ`. -/
structure RateLimiterImpl (α σ : Type) where
  whenF : σ → α → ℤ × σ
  numRequeuesF : σ → α → ℤ
  forgetF : σ → α → σ

/-- The `limiters` slice of a `MaxOfRateLimiter`: each child interface
value paired with its current internal state. -/
abbrev MaxOfChildren (α σ : Type) := List (RateLimiterImpl α σ × σ)

/-- `MaxOfRateLimiter.When`: `ret := 0`; for each child limiter, call its
`When` and keep `curr` whenever `curr > ret`; return `ret`.  The updated
child states are collected positionally. -/
def maxOfWhen (children : MaxOfChildren α σ) (item : α) : ℤ × MaxOfChildren α σ :=
  children.foldl
    (fun acc c =>
      let p := c.1.whenF c.2 item
      (if acc.1 < p.1 then p.1 else acc.1, acc.2 ++ [(c.1, p.2)]))
    (0, [])

/-- `MaxOfRateLimiter.NumRequeues`: `ret := 0`; keep each child's
`NumRequeues` whenever it exceeds `ret`. -/
def maxOfNumRequeues (children : MaxOfChildren α σ) (item : α) : ℤ :=
  children.foldl
    (fun ret c =>
      let curr := c.1.numRequeuesF c.2 item
      if ret < curr then curr else ret)
    0

/-- `MaxOfRateLimiter.Forget`: forward `Forget` to every child in order. -/
def maxOfForget (children : MaxOfChildren α σ) (item : α) : MaxOfChildren α σ :=
  children.foldl (fun acc c => acc ++ [(c.1, c.1.forgetF c.2 item)]) []

/-- The delays the children would individually return for this item. -/
def childWhenResults (children : MaxOfChildren α σ) (item : α) : List ℤ :=
  children.map (fun c => (c.1.whenF c.2 item).1)

/-- The requeue counts the children individually return for this item. -/
def childNumRequeues (children : MaxOfChildren α σ) (item : α) : List ℤ :=
  children.map (fun c => c.1.numRequeuesF c.2 item)

/-- The int64 actually produced on the reference platform (amd64) when
the float-to-int64 conversion is out of range: `math.MinInt64`.  Only
used to fit the implementation-defined case of `expWhen` into the
`RateLimiter` interface, whose `When` always returns some `int64`; no
theorem below depends on this choice (every evaluation stays in the
exactly-defined regime). -/
def impDefDuration : ℤ := -(2 ^ 63)

/-- The repo's own `ItemExponentialFailureRateLimiter`, packaged as a
value of the `RateLimiter` interface. -/
def expAsRateLimiter (α : Type) [DecidableEq α] :
    RateLimiterImpl α (ItemExponentialFailureRateLimiter α) :=
  ⟨fun s x => ((expWhen s x).1.getD impDefDuration, (expWhen s x).2),
    fun s x => (expNumRequeues s x : ℤ), fun s x => expForget s x⟩

theorem foldl_keepMax_spec (l : List ℤ) (a : ℤ) :
    a ≤ l.foldl (fun ret curr => if ret < curr then curr else ret) a ∧
      (∀ d ∈ l, d ≤ l.foldl (fun ret curr => if ret < curr then curr else ret) a) ∧
      (l.foldl (fun ret curr => if ret < curr then curr else ret) a = a ∨
        l.foldl (fun ret curr => if ret < curr then curr else ret) a ∈ l) := by
  induction l generalizing a with
  | nil => exact ⟨le_refl a, fun d hd => absurd hd (List.not_mem_nil d), Or.inl rfl⟩
  | cons c t ih =>
    simp only [List.foldl_cons]
    rcases ih (if a < c then c else a) with ⟨h1, h2, h3⟩
    have hac : a ≤ if a < c then c else a := by split <;> omega
    have hcc : c ≤ if a < c then c else a := by split <;> omega
    refine ⟨le_trans hac h1, ?_, ?_⟩
    · intro d hd
      rcases List.mem_cons.mp hd with h | h
      · rw [h]
        exact le_trans hcc h1
      · exact h2 d h
    · rcases h3 with h | h
      · by_cases hlt : a < c
        · rw [if_pos hlt] at h ⊢
          exact Or.inr (List.mem_cons.mpr (Or.inl h))
        · rw [if_neg hlt] at h ⊢
          exact Or.inl h
      · exact Or.inr (List.mem_cons_of_mem c h)

theorem foldl_append_singleton_eq_map (l : List β) (g : β → γ) (init : List γ) :
    l.foldl (fun acc c => acc ++ [g c]) init = init ++ l.map g := by
  induction l generalizing init with
  | nil => simp
  | cons c t ih => simp [ih]

theorem maxOfWhen_foldl (children : MaxOfChildren α σ) (item : α) (a : ℤ)
    (acc : List (RateLimiterImpl α σ × σ)) :
    children.foldl
        (fun acc c =>
          let p := c.1.whenF c.2 item
          (if acc.1 < p.1 then p.1 else acc.1, acc.2 ++ [(c.1, p.2)]))
        (a, acc) =
      ((childWhenResults children item).foldl
          (fun ret curr => if ret < curr then curr else ret) a,
        acc ++ children.map (fun c => (c.1, (c.1.whenF c.2 item).2))) := by
  induction children generalizing a acc with
  | nil => simp [childWhenResults]
  | cons c t ih =>
    simp only [List.foldl_cons, childWhenResults, List.map_cons]
    rw [ih]
    simp [childWhenResults]

/-- C6 counterexample: with a single child — the repo's own exponential
limiter constructed with `baseDelay = -1` — the child's `When("x")`
returns `-1` but `MaxOfRateLimiter.When("x")` returns `0`, because the
folded maximum starts from `ret = 0`; so `When` does not return the
maximum of the children's `When` results. -/
theorem maxOf_when_counterexample :
    (maxOfWhen [(expAsRateLimiter String, newItemExponentialFailureRateLimiter (-1) 1000)]
        "x").1 = 0 ∧
      ((expAsRateLimiter String).whenF (newItemExponentialFailureRateLimiter (-1) 1000)
          "x").1 = -1 :=
  ⟨rfl, rfl⟩

/-- C6 (amended): `MaxOfRateLimiter.When(x)` returns the maximum of the
children's `When(x)` results and `0` (the fold starts from `ret = 0`, so
the result is clamped below at zero; on children that never return a
negative delay this is the children's maximum), and threads every child's
updated state; `NumRequeues(x)` likewise returns the children's maximum
requeue count clamped below at zero; `Forget(x)` forwards to every child. -/
theorem maxOf_composition (children : MaxOfChildren α σ) (x : α) :
    (∀ d ∈ childWhenResults children x, d ≤ (maxOfWhen children x).1) ∧
      (0 : ℤ) ≤ (maxOfWhen children x).1 ∧
      ((maxOfWhen children x).1 = 0 ∨
        (maxOfWhen children x).1 ∈ childWhenResults children x) ∧
      (maxOfWhen children x).2 = children.map (fun c => (c.1, (c.1.whenF c.2 x).2)) ∧
      (∀ d ∈ childNumRequeues children x, d ≤ maxOfNumRequeues children x) ∧
      (0 : ℤ) ≤ maxOfNumRequeues children x ∧
      (maxOfNumRequeues children x = 0 ∨
        maxOfNumRequeues children x ∈ childNumRequeues children x) ∧
      maxOfForget children x = children.map (fun c => (c.1, c.1.forgetF c.2 x)) := by
  have hw : maxOfWhen children x =
      ((childWhenResults children x).foldl
          (fun ret curr => if ret < curr then curr else ret) 0,
        children.map (fun c => (c.1, (c.1.whenF c.2 x).2))) := by
    unfold maxOfWhen
    rw [maxOfWhen_foldl children x 0 []]
    simp
  have hn : maxOfNumRequeues children x =
      (childNumRequeues children x).foldl
        (fun ret curr => if ret < curr then curr else ret) 0 := by
    unfold maxOfNumRequeues childNumRequeues
    rw [List.foldl_map]
  rcases foldl_keepMax_spec (childWhenResults children x) 0 with ⟨hw0, hwall, hwmem⟩
  rcases foldl_keepMax_spec (childNumRequeues children x) 0 with ⟨hn0, hnall, hnmem⟩
  refine ⟨?_, ?_, ?_, ?_, ?_, ?_, ?_, ?_⟩
  · intro d hd
    rw [hw]
    exact hwall d hd
  · rw [hw]
    exact hw0
  · rw [hw]
    exact hwmem
  · rw [hw]
  · intro d hd
    rw [hn]
    exact hnall d hd
  · rw [hn]
    exact hn0
  · rw [hn]
    exact hnmem
  · unfold maxOfForget
    rw [foldl_append_singleton_eq_map children (fun c => (c.1, c.1.forgetF c.2 x)) []]
    simp

/-! ## util/workqueue/queue.go: the base work queue `Type` -/

/-- State of the work queue `Type`: the ordered `queue` slice, the
`dirty` and `processing` sets and the `shuttingDown` flag.  The condition
variable, metrics and clock have no effect on this state and are not
modelled. -/
structure WorkQueue (α : Type) [DecidableEq α] where
  queue : List α
  dirty : Finset α
  processing : Finset α
  shuttingDown : Bool

section WorkQueueOps

variable {α : Type} [DecidableEq α]

/-- `newQueue`: empty queue, empty dirty and processing sets. -/
def newWorkQueue : WorkQueue α :=
  ⟨[], ∅, ∅, false⟩

/-- `Type.Add`: return early when shutting down or when the item is
already dirty; otherwise insert into `dirty`; stop there when the item is
being processed, else append it to `queue`. -/
def wqAdd (item : α) (q : WorkQueue α) : WorkQueue α :=
  if q.shuttingDown then q
  else if item ∈ q.dirty then q
  else if item ∈ q.processing then { q with dirty := insert item q.dirty }
  else { q with dirty := insert item q.dirty, queue := q.queue ++ [item] }

/-- `Type.Get`: when `queue` is non-empty, pop its head, move it from
`dirty` into `processing` and return it.  When `queue` is empty the Go
method blocks (or reports shutdown) without touching the state, so the
state is returned unchanged with no item. -/
def wqGet (q : WorkQueue α) : Option α × WorkQueue α :=
  match q.queue with
  | [] => (none, q)
  | item :: rest =>
    (some item,
      { q with
          queue := rest
          processing := insert item q.processing
          dirty := q.dirty.erase item })

/-- `Type.Done`: remove the item from `processing`; when it is still
dirty, append it back to `queue`. -/
def wqDone (item : α) (q : WorkQueue α) : WorkQueue α :=
  if item ∈ q.dirty then
    { q with processing := q.processing.erase item, queue := q.queue ++ [item] }
  else { q with processing := q.processing.erase item }

/-- `Type.ShutDown`: set the flag. -/
def wqShutDown (q : WorkQueue α) : WorkQueue α :=
  { q with shuttingDown := true }

/-- External operations of the work queue. -/
inductive WQOp (α : Type) where
  | add (item : α)
  | get
  | done (item : α)
  | shutDown
deriving DecidableEq

/-- Effect of one operation on the queue state. -/
def applyWQOp (q : WorkQueue α) : WQOp α → WorkQueue α
  | .add x => wqAdd x q
  | .get => (wqGet q).2
  | .done x => wqDone x q
  | .shutDown => wqShutDown q

/-- Effect of an operation sequence. -/
def applyWQOps (q : WorkQueue α) (ops : List (WQOp α)) : WorkQueue α :=
  ops.foldl applyWQOp q

/-- Well-formed use of the queue: `Done(x)` is only called while `x` is in
the `processing` set, i.e. it matches an outstanding `Get`.  This is the
documented `Get`/`Done` contract ("You must call Done with item when you
have finished processing it"). -/
def WQValidOps (q : WorkQueue α) : List (WQOp α) → Prop
  | [] => True
  | op :: rest =>
    (match op with
     | .done x => x ∈ q.processing
     | _ => True) ∧ WQValidOps (applyWQOp q op) rest

/-- The bookkeeping invariant of the work queue. -/
def WQInv (q : WorkQueue α) : Prop :=
  q.queue.Nodup ∧ (∀ x ∈ q.queue, x ∈ q.dirty) ∧ ∀ x ∈ q.queue, x ∉ q.processing

theorem wqInv_new : WQInv (newWorkQueue : WorkQueue α) := by
  refine ⟨List.nodup_nil, ?_, ?_⟩ <;> intro x hx <;> exact absurd hx (List.not_mem_nil x)

theorem wqInv_add (q : WorkQueue α) (x : α) (h : WQInv q) : WQInv (wqAdd x q) := by
  rcases h with ⟨hnd, hsub, hdis⟩
  unfold wqAdd
  split
  · exact ⟨hnd, hsub, hdis⟩
  · split
    · exact ⟨hnd, hsub, hdis⟩
    · rename_i hdirty
      split
      · exact ⟨hnd, fun y hy => Finset.mem_insert_of_mem (hsub y hy), hdis⟩
      · rename_i hproc
        refine ⟨?_, ?_, ?_⟩
        · rw [List.nodup_append]
          exact ⟨hnd, List.nodup_singleton x, by
            intro y hy hy'
            rw [List.mem_singleton] at hy'
            subst hy'
            exact hdirty (hsub y hy)⟩
        · intro y hy
          rcases List.mem_append.mp hy with hy | hy
          · exact Finset.mem_insert_of_mem (hsub y hy)
          · rw [List.mem_singleton] at hy
            subst hy
            exact Finset.mem_insert_self y q.dirty
        · intro y hy
          rcases List.mem_append.mp hy with hy | hy
          · exact hdis y hy
          · rw [List.mem_singleton] at hy
            subst hy
            exact hproc

theorem wqInv_get (q : WorkQueue α) (h : WQInv q) : WQInv (wqGet q).2 := by
  rcases h with ⟨hnd, hsub, hdis⟩
  unfold wqGet
  split
  · exact ⟨hnd, hsub, hdis⟩
  · rename_i item rest heq
    rw [heq] at hnd hsub hdis
    rcases List.nodup_cons.mp hnd with ⟨hni, hndr⟩
    refine ⟨hndr, ?_, ?_⟩
    · intro y hy
      refine Finset.mem_erase.mpr ⟨?_, hsub y (List.mem_cons_of_mem item hy)⟩
      intro hyi
      exact hni (hyi ▸ hy)
    · intro y hy hmem
      rcases Finset.mem_insert.mp hmem with hyi | hyp
      · exact hni (hyi ▸ hy)
      · exact hdis y (List.mem_cons_of_mem item hy) hyp

theorem wqInv_done (q : WorkQueue α) (x : α) (hx : x ∈ q.processing) (h : WQInv q) :
    WQInv (wqDone x q) := by
  rcases h with ⟨hnd, hsub, hdis⟩
  have hxq : x ∉ q.queue := fun hq => hdis x hq hx
  unfold wqDone
  split
  · rename_i hd
    refine ⟨?_, ?_, ?_⟩
    · rw [List.nodup_append]
      exact ⟨hnd, List.nodup_singleton x, by
        intro y hy hy'
        rw [List.mem_singleton] at hy'
        exact hxq (hy' ▸ hy)⟩
    · intro y hy
      rcases List.mem_append.mp hy with hy | hy
      · exact hsub y hy
      · rw [List.mem_singleton] at hy
        exact hy ▸ hd
    · intro y hy
      rcases List.mem_append.mp hy with hy | hy
      · exact fun hmem => hdis y hy (Finset.mem_of_mem_erase hmem)
      · rw [List.mem_singleton] at hy
        subst hy
        exact Finset.not_mem_erase y q.processing
  · exact ⟨hnd, hsub, fun y hy hmem => hdis y hy (Finset.mem_of_mem_erase hmem)⟩

theorem wqInv_shutDown (q : WorkQueue α) (h : WQInv q) : WQInv (wqShutDown q) := h

theorem wqInv_ops (q : WorkQueue α) (ops : List (WQOp α)) (hv : WQValidOps q ops)
    (h : WQInv q) : WQInv (applyWQOps q ops) := by
  induction ops generalizing q with
  | nil => exact h
  | cons op rest ih =>
    rcases hv with ⟨hop, hrest⟩
    refine ih (applyWQOp q op) hrest ?_
    cases op with
    | add x => exact wqInv_add q x h
    | get => exact wqInv_get q h
    | done x => exact wqInv_done q x hop h
    | shutDown => exact wqInv_shutDown q h

/-- C2 counterexample: the claim quantifies over arbitrary sequences of
`Add`/`Get`/`Done`/`ShutDown`; the sequence `Add "x"; Done "x"` — where
`Done` is called for an item that was never handed out by `Get` — leaves
`queue = ["x", "x"]`, so `queue` does not contain each item at most
once. -/
theorem workqueue_invariant_counterexample :
    (applyWQOps (newWorkQueue : WorkQueue String) [WQOp.add "x", WQOp.done "x"]).queue
        = ["x", "x"] ∧
      ¬ (applyWQOps (newWorkQueue : WorkQueue String)
          [WQOp.add "x", WQOp.done "x"]).queue.Nodup := by
  refine ⟨by decide, by decide⟩

/-- C2 (amended): after any sequence of `Add`/`Get`/`Done`/`ShutDown`
operations from a fresh queue in which every `Done(x)` is called while
`x` is in the `processing` set (the documented `Get`/`Done` contract),
the `queue` slice contains each item at most once, every queued item is
in the `dirty` set, and no queued item is in `processing`; moreover
`Add(x)` while `x` is being processed and not yet dirty records `x` in
`dirty` only, leaving `queue` unchanged, and `Done(x)` appends `x` back
to `queue` exactly when `x` is still dirty at that point. -/
theorem workqueue_invariant (ops : List (WQOp α))
    (hv : WQValidOps (newWorkQueue : WorkQueue α) ops) :
    (applyWQOps (newWorkQueue : WorkQueue α) ops).queue.Nodup ∧
      (∀ x ∈ (applyWQOps (newWorkQueue : WorkQueue α) ops).queue,
        x ∈ (applyWQOps (newWorkQueue : WorkQueue α) ops).dirty) ∧
      (∀ x ∈ (applyWQOps (newWorkQueue : WorkQueue α) ops).queue,
        x ∉ (applyWQOps (newWorkQueue : WorkQueue α) ops).processing) ∧
      (∀ q : WorkQueue α, ∀ x, x ∈ q.processing → ¬q.shuttingDown = true →
        x ∉ q.dirty → (wqAdd x q).queue = q.queue ∧ x ∈ (wqAdd x q).dirty) ∧
      (∀ q : WorkQueue α, ∀ x,
        (wqDone x q).queue = if x ∈ q.dirty then q.queue ++ [x] else q.queue) := by
  rcases wqInv_ops (newWorkQueue : WorkQueue α) ops hv wqInv_new with ⟨h1, h2, h3⟩
  refine ⟨h1, h2, h3, ?_, ?_⟩
  · intro q x hproc hsd hdirty
    unfold wqAdd
    rw [if_neg (by simpa using hsd), if_neg hdirty, if_pos hproc]
    exact ⟨rfl, Finset.mem_insert_self x q.dirty⟩
  · intro q x
    unfold wqDone
    split <;> rfl

/-- C2 witness: the scenario `Add "x"; Get; Add "x"; Done "x"` is a valid
use of the queue, and the invariant holds at its end. -/
theorem workqueue_invariant_witness :
    (applyWQOps (newWorkQueue : WorkQueue String)
        [WQOp.add "x", WQOp.get, WQOp.add "x", WQOp.done "x"]).queue.Nodup :=
  (workqueue_invariant [WQOp.add "x", WQOp.get, WQOp.add "x", WQOp.done "x"]
    (by refine ⟨trivial, trivial, trivial, ?_, trivial⟩; decide)).1

end WorkQueueOps

/-! ## FilteringResourceEventHandler (controller/informer file) -/

/-- The nested `ResourceEventHandler` interface: its three methods as
effects on an abstract handler state `σ` (for example, a trace of the
events the user sees). -/
structure ResourceEventHandler (α σ : Type) where
  onAddF : α → σ → σ
  onUpdateF : α → α → σ → σ
  onDeleteF : α → σ → σ

/-- `FilteringResourceEventHandler`: a filter predicate wrapping a nested
handler. -/
structure FilteringResourceEventHandler (α σ : Type) where
  filterFunc : α → Bool
  handler : ResourceEventHandler α σ

/-- `FilteringResourceEventHandler.OnUpdate`: evaluate the filter on the
new and the old object and dispatch per the source's switch. -/
def filteringOnUpdate (r : FilteringResourceEventHandler α σ) (oldObj newObj : α)
    (s : σ) : σ :=
  let newer := r.filterFunc newObj
  let older := r.filterFunc oldObj
  match newer, older with
  | true, true => r.handler.onUpdateF oldObj newObj s
  | true, false => r.handler.onAddF newObj s
  | false, true => r.handler.onDeleteF oldObj s
  | false, false => s

/-- C5: `FilteringResourceEventHandler.OnUpdate(old, new)` invokes the
nested handler's `OnUpdate(old, new)` when the filter passes both
objects, `OnAdd(new)` when it passes only the new object, `OnDelete(old)`
when it passes only the old object, and nothing when it passes neither. -/
theorem filtering_onUpdate_transitions (r : FilteringResourceEventHandler α σ)
    (oldObj newObj : α) (s : σ) :
    (r.filterFunc newObj = true → r.filterFunc oldObj = true →
        filteringOnUpdate r oldObj newObj s = r.handler.onUpdateF oldObj newObj s) ∧
      (r.filterFunc newObj = true → r.filterFunc oldObj = false →
        filteringOnUpdate r oldObj newObj s = r.handler.onAddF newObj s) ∧
      (r.filterFunc newObj = false → r.filterFunc oldObj = true →
        filteringOnUpdate r oldObj newObj s = r.handler.onDeleteF oldObj s) ∧
      (r.filterFunc newObj = false → r.filterFunc oldObj = false →
        filteringOnUpdate r oldObj newObj s = s) := by
  refine ⟨?_, ?_, ?_, ?_⟩ <;> intro hn ho <;> unfold filteringOnUpdate <;>
    rw [hn, ho]

/-- Events recorded by a tracing nested handler, for the C5 witness. -/
inductive HandlerEvent (α : Type) where
  | added (obj : α)
  | updated (oldObj newObj : α)
  | deleted (obj : α)
deriving DecidableEq

/-- A nested handler that records every invocation. -/
def tracingHandler (α : Type) : ResourceEventHandler α (List (HandlerEvent α)) :=
  ⟨fun o tr => tr ++ [HandlerEvent.added o],
    fun o n tr => tr ++ [HandlerEvent.updated o n],
    fun o tr => tr ++ [HandlerEvent.deleted o]⟩

/-- C5 witness: with filter "label == foo", an update from label `bar` to
label `foo` is delivered as `OnAdd(new)`. -/
theorem filtering_onUpdate_transitions_witness :
    filteringOnUpdate
        ⟨fun o => o = "foo", tracingHandler String⟩ "bar" "foo" [] =
      [HandlerEvent.added "foo"] :=
  (filtering_onUpdate_transitions ⟨fun o => o = "foo", tracingHandler String⟩
    "bar" "foo" []).2.1 (by decide) (by decide)

/-! ## tools/cache/store.go: key functions -/

/-- Objects accepted by `MetaNamespaceKeyFunc`: an `ExplicitKey`, an API
object with accessible meta data (namespace and name), or an object with
no meta.  Go strings are modelled as lists of characters so that the
split on `/` can be reasoned about. -/
inductive KeyObj where
  | explicitKey (key : List Char)
  | withMeta (namespc name : List Char)
  | noMeta

/-- `MetaNamespaceKeyFunc`: pass an `ExplicitKey` through; otherwise use
`namespace + "/" + name`, or just `name` when the namespace is empty; an
object without meta is an error. -/
def MetaNamespaceKeyFunc : KeyObj → Except String (List Char)
  | .explicitKey k => .ok k
  | .withMeta ns name =>
    .ok (if 0 < ns.length then ns ++ '/' :: name else name)
  | .noMeta => .error "object has no meta"

/-- Go's `strings.Split(s, "/")`: split at every `/`; the empty string
yields `[""]`. -/
def splitSlash : List Char → List (List Char)
  | [] => [[]]
  | c :: cs =>
    if c = '/' then [] :: splitSlash cs
    else
      match splitSlash cs with
      | [] => [[c]]
      | h :: t => (c :: h) :: t

/-- `SplitMetaNamespaceKey`: one part means name only, two parts mean
namespace and name, anything else is an error. -/
def SplitMetaNamespaceKey (key : List Char) : Except String (List Char × List Char) :=
  match splitSlash key with
  | [name] => .ok ([], name)
  | [ns, name] => .ok (ns, name)
  | _ => .error "unexpected key format"

theorem splitSlash_ne_nil (s : List Char) : splitSlash s ≠ [] := by
  cases s with
  | nil => simp [splitSlash]
  | cons c cs =>
    simp only [splitSlash]
    split
    · simp
    · split <;> simp

theorem splitSlash_no_slash (s : List Char) (h : '/' ∉ s) : splitSlash s = [s] := by
  induction s with
  | nil => rfl
  | cons c cs ih =>
    have hc : c ≠ '/' := fun he => h (he ▸ List.mem_cons_self c cs)
    have hcs : '/' ∉ cs := fun hm => h (List.mem_cons_of_mem c hm)
    simp only [splitSlash, if_neg hc, ih hcs]

theorem splitSlash_append (ns rest : List Char) (h : '/' ∉ ns) :
    splitSlash (ns ++ '/' :: rest) = ns :: splitSlash rest := by
  induction ns with
  | nil => simp [splitSlash]
  | cons c cs ih =>
    have hc : c ≠ '/' := fun he => h (he ▸ List.mem_cons_self c cs)
    have hcs : '/' ∉ cs := fun hm => h (List.mem_cons_of_mem c hm)
    simp only [List.cons_append, splitSlash, if_neg hc]
    have ih' : splitSlash (cs.append ('/' :: rest)) = cs :: splitSlash rest := ih hcs
    rw [ih']

theorem splitSlash_length (s : List Char) :
    (splitSlash s).length = s.count '/' + 1 := by
  induction s with
  | nil => rfl
  | cons c cs ih =>
    simp only [splitSlash]
    by_cases hc : c = '/'
    · subst hc
      simp [ih, List.count_cons]
    · rw [if_neg hc]
      rcases hsp : splitSlash cs with _ | ⟨h1, t⟩
      · exact absurd hsp (splitSlash_ne_nil cs)
      · have : (h1 :: t).length = cs.count '/' + 1 := hsp ▸ ih
        simp only [List.length_cons] at this ⊢
        rw [List.count_cons]
        simp [hc, this]

/-- C8: `MetaNamespaceKeyFunc` produces `namespace ++ "/" ++ name` when
the namespace is non-empty and just `name` when it is empty;
`SplitMetaNamespaceKey` inverts it — for every namespace and name free of
`/`, splitting the produced key returns `(namespace, name)` without
error — and `SplitMetaNamespaceKey` errors on every string containing
two or more `/` characters. -/
theorem meta_namespace_key_roundtrip (ns name : List Char)
    (hns : '/' ∉ ns) (hname : '/' ∉ name) :
    (ns ≠ [] → MetaNamespaceKeyFunc (.withMeta ns name) = .ok (ns ++ '/' :: name)) ∧
      (ns = [] → MetaNamespaceKeyFunc (.withMeta ns name) = .ok name) ∧
      (∀ key, MetaNamespaceKeyFunc (.withMeta ns name) = .ok key →
        SplitMetaNamespaceKey key = .ok (ns, name)) ∧
      (∀ s : List Char, 2 ≤ s.count '/' →
        SplitMetaNamespaceKey s = .error "unexpected key format") := by
  refine ⟨?_, ?_, ?_, ?_⟩
  · intro hne
    have : 0 < ns.length := List.length_pos.mpr hne
    simp [MetaNamespaceKeyFunc, this]
  · intro he
    subst he
    simp [MetaNamespaceKeyFunc]
  · intro key hkey
    simp only [MetaNamespaceKeyFunc, Except.ok.injEq] at hkey
    subst hkey
    by_cases hne : ns = []
    · subst hne
      simp only [List.length_nil, lt_irrefl, if_false]
      unfold SplitMetaNamespaceKey
      rw [splitSlash_no_slash name hname]
    · have hpos : 0 < ns.length := List.length_pos.mpr hne
      rw [if_pos hpos]
      unfold SplitMetaNamespaceKey
      rw [splitSlash_append ns name hns, splitSlash_no_slash name hname]
  · intro s hs
    have hlen : 3 ≤ (splitSlash s).length := by
      rw [splitSlash_length]
      omega
    have hex : ∃ a b c t, splitSlash s = a :: b :: c :: t := by
      rcases hsp : splitSlash s with _ | ⟨a, _ | ⟨b, _ | ⟨c, t⟩⟩⟩
      · exact absurd hsp (splitSlash_ne_nil s)
      · rw [hsp] at hlen
        simp at hlen
      · rw [hsp] at hlen
        simp at hlen
      · exact ⟨a, b, c, t, rfl⟩
    rcases hex with ⟨a, b, c, t, hsp⟩
    unfold SplitMetaNamespaceKey
    rw [hsp]

/-- C8 witness: key `"ns/nm"` round-trips, instantiated from the general
theorem. -/
theorem meta_namespace_key_roundtrip_witness :
    SplitMetaNamespaceKey (['n', 's'] ++ '/' :: ['n', 'm']) = .ok (['n', 's'], ['n', 'm']) :=
  (meta_namespace_key_roundtrip ['n', 's'] ['n', 'm'] (by decide) (by decide)).2.2.1
    (['n', 's'] ++ '/' :: ['n', 'm'])
    ((meta_namespace_key_roundtrip ['n', 's'] ['n', 'm'] (by decide) (by decide)).1
      (by decide))

/-! ## tools/cache/thread_safe_store.go: threadSafeMap

Go maps are modelled as total functions into `Option`.  An `Index`
(`map[string]sets.String`) is `String → Option (Finset String)`: a bucket
that is absent reads as `none` (Go's nil set), and the code deletes
buckets that become empty.  `Indices` (`map[string]Index`) is modelled
with the inner map inlined — a name with no index and a name whose index
has no buckets are extensionally the same, and the code's `index == nil`
materialisation check has no extensional effect.  `Indexers`
(`map[string]IndexFunc`) is a list of name/function entries with distinct
names; index functions are total (an index-function error panics in Go,
aborting the whole operation, and is outside this model). -/

/-- A Go `Index`: index value → bucket of store keys. -/
abbrev GoIndex := String → Option (Finset String)

/-- Go `Indices`: index name → index value → bucket. -/
abbrev GoIndices := String → GoIndex

/-- Go `Indexers` as entries of a map: names paired with index
functions. -/
abbrev GoIndexers (α : Type) := List (String × (α → List String))

/-- State of `threadSafeMap`: the `items` map and the `indices`; the
registered `indexers` are passed as a parameter to the operations (the
claims do not exercise `AddIndexers`). -/
structure ThreadSafeMap (α : Type) where
  items : String → Option α
  indices : GoIndices

/-- `NewThreadSafeStore` with empty indices: empty items, no buckets. -/
def emptyThreadSafeMap : ThreadSafeMap α :=
  ⟨fun _ => none, fun _ _ => none⟩

/-- Inner loop of `updateIndices`: for every produced index value, insert
the key into that value's bucket (creating the bucket when absent). -/
def addToIndex (key : String) (vals : List String) (ix : GoIndex) : GoIndex :=
  vals.foldl
    (fun ix v => Function.update ix v (some (insert key ((ix v).getD ∅)))) ix

/-- Inner loop of `deleteFromIndices`: for every produced index value,
remove the key from that value's bucket when the bucket exists, deleting
the bucket when it becomes empty. -/
def delFromIndex (key : String) (vals : List String) (ix : GoIndex) : GoIndex :=
  vals.foldl
    (fun ix v =>
      match ix v with
      | none => ix
      | some s =>
        Function.update ix v (if s.erase key = ∅ then none else some (s.erase key)))
    ix

/-- Outer loop over the registered indexers: apply a per-index transform
at each registered name. -/
def foldIdx (T : (α → List String) → GoIndex → GoIndex) (idxrs : GoIndexers α)
    (ind : GoIndices) : GoIndices :=
  idxrs.foldl (fun ind p => Function.update ind p.1 (T p.2 (ind p.1))) ind

/-- `threadSafeMap.deleteFromIndices`: remove the object's entries from
every registered index. -/
def deleteFromIndices (idxrs : GoIndexers α) (obj : α) (key : String)
    (ind : GoIndices) : GoIndices :=
  foldIdx (fun f ix => delFromIndex key (f obj) ix) idxrs ind

/-- `threadSafeMap.updateIndices`: when an old object exists, first
remove it from the indices, then add the new object's entries under every
registered index. -/
def updateIndices (idxrs : GoIndexers α) (oldObj : Option α) (newObj : α)
    (key : String) (ind : GoIndices) : GoIndices :=
  foldIdx (fun f ix => addToIndex key (f newObj) ix) idxrs
    (match oldObj with
     | some o => deleteFromIndices idxrs o key ind
     | none => ind)

/-- `threadSafeMap.Add`: store the object under the key (remembering the
old object, if any) and update the indices. -/
def tsmAdd (idxrs : GoIndexers α) (key : String) (obj : α) (c : ThreadSafeMap α) :
    ThreadSafeMap α :=
  ⟨Function.update c.items key (some obj),
    updateIndices idxrs (c.items key) obj key c.indices⟩

/-- `threadSafeMap.Update`: same body as `Add`. -/
def tsmUpdate (idxrs : GoIndexers α) (key : String) (obj : α) (c : ThreadSafeMap α) :
    ThreadSafeMap α :=
  ⟨Function.update c.items key (some obj),
    updateIndices idxrs (c.items key) obj key c.indices⟩

/-- `threadSafeMap.Delete`: when the key is present, remove the object
from the indices and from `items`. -/
def tsmDelete (idxrs : GoIndexers α) (key : String) (c : ThreadSafeMap α) :
    ThreadSafeMap α :=
  match c.items key with
  | some obj =>
    ⟨Function.update c.items key none, deleteFromIndices idxrs obj key c.indices⟩
  | none => c

/-- Lookup in a Go map represented by its (distinct-keyed) entry list. -/
def goMapLookup (pairs : List (String × α)) (k : String) : Option α :=
  (pairs.find? (fun p => p.1 == k)).map Prod.snd

/-- `threadSafeMap.Replace`: install the new items map (given by its
entry list), zero the indices, and re-index every entry. -/
def tsmReplace (idxrs : GoIndexers α) (pairs : List (String × α))
    (_c : ThreadSafeMap α) : ThreadSafeMap α :=
  ⟨goMapLookup pairs,
    pairs.foldl (fun ind p => updateIndices idxrs none p.2 p.1 ind) (fun _ _ => none)⟩

/-- The store operations quantified over by the invariant claim. -/
inductive StoreOp (α : Type) where
  | add (key : String) (obj : α)
  | update (key : String) (obj : α)
  | delete (key : String)
  | replace (pairs : List (String × α))

/-- Effect of one store operation. -/
def applyStoreOp (idxrs : GoIndexers α) (c : ThreadSafeMap α) :
    StoreOp α → ThreadSafeMap α
  | .add key obj => tsmAdd idxrs key obj c
  | .update key obj => tsmUpdate idxrs key obj c
  | .delete key => tsmDelete idxrs key c
  | .replace pairs => tsmReplace idxrs pairs c

/-- Effect of a sequence of store operations. -/
def applyStoreOps (idxrs : GoIndexers α) (c : ThreadSafeMap α)
    (ops : List (StoreOp α)) : ThreadSafeMap α :=
  ops.foldl (applyStoreOp idxrs) c

/-- The bucket of keys stored for index name `n` at index value `v` (the
empty set when the bucket is absent). -/
def bucketOf (c : ThreadSafeMap α) (n v : String) : Finset String :=
  (c.indices n v).getD ∅

/-- The indices-consistency invariant: buckets hold exactly the keys of
items whose index function produces the bucket's value, and no stored
bucket is empty. -/
def IndicesOk (idxrs : GoIndexers α) (c : ThreadSafeMap α) : Prop :=
  (∀ n f, (n, f) ∈ idxrs →
    ∀ v k, k ∈ bucketOf c n v ↔ ∃ o, c.items k = some o ∧ v ∈ f o) ∧
    ∀ n v b, c.indices n v = some b → b.Nonempty

theorem foldIdx_apply_not_mem (T : (α → List String) → GoIndex → GoIndex)
    (idxrs : GoIndexers α) (ind : GoIndices) (n : String)
    (h : n ∉ idxrs.map Prod.fst) :
    foldIdx T idxrs ind n = ind n := by
  induction idxrs generalizing ind with
  | nil => rfl
  | cons p rest ih =>
    have hn : n ∉ rest.map Prod.fst := fun hm => h (List.mem_cons_of_mem _ hm)
    have hp : n ≠ p.1 := fun he => h (by rw [List.map_cons]; exact he ▸ List.mem_cons_self _ _)
    unfold foldIdx at ih ⊢
    rw [List.foldl_cons, ih _ hn, Function.update_noteq hp]

theorem foldIdx_apply_mem (T : (α → List String) → GoIndex → GoIndex)
    (idxrs : GoIndexers α) (ind : GoIndices) (n : String) (f : α → List String)
    (hnd : (idxrs.map Prod.fst).Nodup) (hmem : (n, f) ∈ idxrs) :
    foldIdx T idxrs ind n = T f (ind n) := by
  induction idxrs generalizing ind with
  | nil => exact absurd hmem (List.not_mem_nil _)
  | cons p rest ih =>
    rw [List.map_cons, List.nodup_cons] at hnd
    rcases List.mem_cons.mp hmem with h | h
    · subst h
      have hn : n ∉ rest.map Prod.fst := hnd.1
      unfold foldIdx
      rw [List.foldl_cons]
      have := foldIdx_apply_not_mem T rest
        (Function.update ind n (T f (ind n))) n hn
      unfold foldIdx at this
      rw [this, Function.update_same]
    · have hne : n ≠ p.1 := by
        intro he
        exact hnd.1 (he ▸ List.mem_map_of_mem Prod.fst h)
      unfold foldIdx at ih ⊢
      rw [List.foldl_cons, ih _ hnd.2 h, Function.update_noteq hne]

theorem mem_addToIndex (key : String) (vals : List String) (ix : GoIndex)
    (v k : String) :
    k ∈ ((addToIndex key vals ix) v).getD ∅ ↔
      k ∈ (ix v).getD ∅ ∨ (k = key ∧ v ∈ vals) := by
  induction vals generalizing ix with
  | nil => simp [addToIndex]
  | cons w ws ih =>
    unfold addToIndex at ih ⊢
    rw [List.foldl_cons]
    rw [ih]
    by_cases hvw : v = w
    · subst hvw
      rw [Function.update_same]
      simp only [Option.getD_some, Finset.mem_insert, List.mem_cons]
      tauto
    · rw [Function.update_noteq hvw]
      simp only [List.mem_cons]
      tauto

theorem addToIndex_nonempty (key : String) (vals : List String) (ix : GoIndex)
    (h : ∀ v b, ix v = some b → b.Nonempty) :
    ∀ v b, (addToIndex key vals ix) v = some b → b.Nonempty := by
  induction vals generalizing ix with
  | nil => exact h
  | cons w ws ih =>
    unfold addToIndex at ih ⊢
    rw [List.foldl_cons]
    refine ih _ ?_
    intro v b hb
    by_cases hvw : v = w
    · subst hvw
      rw [Function.update_same] at hb
      cases hb
      exact Finset.insert_nonempty _ _
    · rw [Function.update_noteq hvw] at hb
      exact h v b hb

theorem mem_delFromIndex (key : String) (vals : List String) (ix : GoIndex)
    (v k : String) :
    k ∈ ((delFromIndex key vals ix) v).getD ∅ ↔
      k ∈ (ix v).getD ∅ ∧ ¬(k = key ∧ v ∈ vals) := by
  induction vals generalizing ix with
  | nil => simp [delFromIndex]
  | cons w ws ih =>
    unfold delFromIndex at ih ⊢
    rw [List.foldl_cons]
    rw [ih]
    have hsub : k ∈ (((match ix w with
          | none => ix
          | some s =>
            Function.update ix w
              (if s.erase key = ∅ then none else some (s.erase key))) : GoIndex) v).getD ∅ ↔
        k ∈ (ix v).getD ∅ ∧ ¬(k = key ∧ v = w) := by
      rcases hw : ix w with _ | s
      · simp only [hw]
        by_cases hvw : v = w
        · subst hvw
          rw [hw]
          simp
        · simp [hvw]
      · simp only [hw]
        by_cases hvw : v = w
        · subst hvw
          rw [Function.update_same, hw]
          split
          · rename_i hemp
            simp only [Option.getD_none, Option.getD_some]
            constructor
            · intro hk
              exact absurd hk (Finset.not_mem_empty k)
            · rintro ⟨hm, hno⟩
              have hke : k ∈ s.erase key :=
                Finset.mem_erase.mpr ⟨fun hk => hno ⟨hk, by trivial⟩, hm⟩
              rw [hemp] at hke
              exact absurd hke (Finset.not_mem_empty k)
          · simp only [Option.getD_some]
            rw [Finset.mem_erase]
            constructor
            · rintro ⟨hne, hm⟩
              exact ⟨hm, fun h => hne h.1⟩
            · rintro ⟨hm, hno⟩
              exact ⟨fun hk => hno ⟨hk, by trivial⟩, hm⟩
        · rw [Function.update_noteq hvw]
          simp [hvw]
    rw [hsub]
    simp only [List.mem_cons]
    tauto

theorem delFromIndex_nonempty (key : String) (vals : List String) (ix : GoIndex)
    (h : ∀ v b, ix v = some b → b.Nonempty) :
    ∀ v b, (delFromIndex key vals ix) v = some b → b.Nonempty := by
  induction vals generalizing ix with
  | nil => exact h
  | cons w ws ih =>
    unfold delFromIndex at ih ⊢
    rw [List.foldl_cons]
    refine ih _ ?_
    intro v b hb
    rcases hw : ix w with _ | s
    · simp only [hw] at hb
      exact h v b hb
    · simp only [hw] at hb
      by_cases hvw : v = w
      · subst hvw
        rw [Function.update_same] at hb
        split at hb
        · cases hb
        · rename_i hemp
          cases hb
          exact Finset.nonempty_iff_ne_empty.mpr hemp
      · rw [Function.update_noteq hvw] at hb
        exact h v b hb

/-- Whether the index value `v` is among the values the index function
produces for the old object (no old object: no values). -/
def oldHits (f : α → List String) (oldObj : Option α) (v : String) : Prop :=
  match oldObj with
  | some o => v ∈ f o
  | none => False

theorem oldHits_none (f : α → List String) (v : String) :
    oldHits f none v ↔ False := Iff.rfl

theorem oldHits_some (f : α → List String) (o : α) (v : String) :
    oldHits f (some o) v ↔ v ∈ f o := Iff.rfl

theorem foldIdx_nonempty (T : (α → List String) → GoIndex → GoIndex)
    (hT : ∀ f (ix : GoIndex), (∀ v b, ix v = some b → b.Nonempty) →
      ∀ v b, T f ix v = some b → b.Nonempty)
    (idxrs : GoIndexers α) (ind : GoIndices)
    (h : ∀ n v b, ind n v = some b → b.Nonempty) :
    ∀ n v b, foldIdx T idxrs ind n v = some b → b.Nonempty := by
  induction idxrs generalizing ind with
  | nil => exact h
  | cons p rest ih =>
    unfold foldIdx at ih ⊢
    rw [List.foldl_cons]
    refine ih _ ?_
    intro n v b hb
    by_cases hnp : n = p.1
    · subst hnp
      rw [Function.update_same] at hb
      exact hT p.2 (ind p.1) (h p.1) v b hb
    · rw [Function.update_noteq hnp] at hb
      exact h n v b hb

theorem mem_updateIndices (idxrs : GoIndexers α)
    (hnd : (idxrs.map Prod.fst).Nodup) (oldObj : Option α) (newObj : α)
    (key : String) (ind : GoIndices) (n : String) (f : α → List String)
    (hmem : (n, f) ∈ idxrs) (v k : String) :
    k ∈ ((updateIndices idxrs oldObj newObj key ind) n v).getD ∅ ↔
      (k ∈ (ind n v).getD ∅ ∧ ¬(k = key ∧ oldHits f oldObj v)) ∨
        (k = key ∧ v ∈ f newObj) := by
  unfold updateIndices
  rw [foldIdx_apply_mem _ idxrs _ n f hnd hmem, mem_addToIndex]
  rcases oldObj with _ | o
  · rw [oldHits_none]
    tauto
  · rw [oldHits_some]
    have hdel : (deleteFromIndices idxrs o key ind) n = delFromIndex key (f o) (ind n) :=
      foldIdx_apply_mem _ idxrs ind n f hnd hmem
    show k ∈ ((deleteFromIndices idxrs o key ind) n v).getD ∅ ∨ _ ↔ _
    rw [hdel, mem_delFromIndex]

theorem updateIndices_nonempty (idxrs : GoIndexers α) (oldObj : Option α)
    (newObj : α) (key : String) (ind : GoIndices)
    (h : ∀ n v b, ind n v = some b → b.Nonempty) :
    ∀ n v b, (updateIndices idxrs oldObj newObj key ind) n v = some b → b.Nonempty := by
  unfold updateIndices
  refine foldIdx_nonempty _ (fun f' ix h' => addToIndex_nonempty key (f' newObj) ix h')
    idxrs _ ?_
  rcases oldObj with _ | o
  · exact h
  · exact foldIdx_nonempty _ (fun f' ix h' => delFromIndex_nonempty key (f' o) ix h')
      idxrs ind h

theorem indicesOk_updateLike (idxrs : GoIndexers α)
    (hnd : (idxrs.map Prod.fst).Nodup) (key : String) (obj : α)
    (c : ThreadSafeMap α) (h : IndicesOk idxrs c) :
    IndicesOk idxrs
      ⟨Function.update c.items key (some obj),
        updateIndices idxrs (c.items key) obj key c.indices⟩ := by
  rcases h with ⟨hm, hne⟩
  constructor
  · intro n f hf v k
    unfold bucketOf
    dsimp only
    rw [mem_updateIndices idxrs hnd (c.items key) obj key c.indices n f hf v k]
    by_cases hk : k = key
    · subst hk
      rw [Function.update_same]
      have hbk := hm n f hf v k
      unfold bucketOf at hbk
      rcases hck : c.items k with _ | o₀
      · rw [hck] at hbk
        rw [oldHits_none]
        constructor
        · rintro (⟨hb, _⟩ | ⟨_, hv⟩)
          · rcases hbk.mp hb with ⟨o, ho, _⟩
            cases ho
          · exact ⟨obj, rfl, hv⟩
        · rintro ⟨o, ho, hv⟩
          cases Option.some.inj ho
          exact Or.inr ⟨rfl, hv⟩
      · rw [hck] at hbk
        rw [oldHits_some]
        have hbk' : k ∈ (c.indices n v).getD ∅ ↔ v ∈ f o₀ := by
          rw [hbk]
          constructor
          · rintro ⟨o, ho, hv⟩
            cases ho
            exact hv
          · intro hv
            exact ⟨o₀, rfl, hv⟩
        rw [hbk']
        constructor
        · rintro (⟨hv, hno⟩ | ⟨_, hv⟩)
          · exact absurd ⟨rfl, hv⟩ hno
          · exact ⟨obj, rfl, hv⟩
        · rintro ⟨o, ho, hv⟩
          cases ho
          exact Or.inr ⟨rfl, hv⟩
    · rw [Function.update_noteq hk]
      have hbk := hm n f hf v k
      unfold bucketOf at hbk
      rw [hbk]
      constructor
      · rintro (⟨hex, _⟩ | ⟨hkk, _⟩)
        · exact hex
        · exact absurd hkk hk
      · intro hex
        exact Or.inl ⟨hex, fun hc => hk hc.1⟩
  · exact updateIndices_nonempty idxrs (c.items key) obj key c.indices hne

theorem indicesOk_add (idxrs : GoIndexers α) (hnd : (idxrs.map Prod.fst).Nodup)
    (key : String) (obj : α) (c : ThreadSafeMap α) (h : IndicesOk idxrs c) :
    IndicesOk idxrs (tsmAdd idxrs key obj c) :=
  indicesOk_updateLike idxrs hnd key obj c h

theorem indicesOk_update (idxrs : GoIndexers α) (hnd : (idxrs.map Prod.fst).Nodup)
    (key : String) (obj : α) (c : ThreadSafeMap α) (h : IndicesOk idxrs c) :
    IndicesOk idxrs (tsmUpdate idxrs key obj c) :=
  indicesOk_updateLike idxrs hnd key obj c h

theorem indicesOk_delete_core (idxrs : GoIndexers α)
    (hnd : (idxrs.map Prod.fst).Nodup) (key : String) (o₀ : α)
    (c : ThreadSafeMap α) (hck : c.items key = some o₀) (h : IndicesOk idxrs c) :
    IndicesOk idxrs
      ⟨Function.update c.items key none, deleteFromIndices idxrs o₀ key c.indices⟩ := by
  rcases h with ⟨hm, hne⟩
  constructor
  · intro n f hf v k
    unfold bucketOf
    dsimp only
    have hdel : (deleteFromIndices idxrs o₀ key c.indices) n =
        delFromIndex key (f o₀) (c.indices n) :=
      foldIdx_apply_mem _ idxrs c.indices n f hnd hf
    rw [hdel, mem_delFromIndex]
    have hbk := hm n f hf v k
    unfold bucketOf at hbk
    rw [hbk]
    by_cases hk : k = key
    · subst hk
      rw [Function.update_same]
      constructor
      · rintro ⟨⟨o, ho, hv⟩, hno⟩
        cases Option.some.inj (hck.symm.trans ho)
        exact absurd ⟨rfl, hv⟩ hno
      · rintro ⟨o, ho, _⟩
        cases ho
    · rw [Function.update_noteq hk]
      tauto
  · exact foldIdx_nonempty _
      (fun f' ix h' => delFromIndex_nonempty key (f' o₀) ix h') idxrs c.indices hne

theorem indicesOk_delete (idxrs : GoIndexers α) (hnd : (idxrs.map Prod.fst).Nodup)
    (key : String) (c : ThreadSafeMap α) (h : IndicesOk idxrs c) :
    IndicesOk idxrs (tsmDelete idxrs key c) := by
  unfold tsmDelete
  rcases hck : c.items key with _ | o₀
  · exact h
  · exact indicesOk_delete_core idxrs hnd key o₀ c hck h

theorem goMapLookup_not_mem (pairs : List (String × α)) (k : String)
    (h : k ∉ pairs.map Prod.fst) : goMapLookup pairs k = none := by
  unfold goMapLookup
  have : pairs.find? (fun p => p.1 == k) = none := by
    rw [List.find?_eq_none]
    intro p hp
    simp only [beq_iff_eq]
    intro he
    exact h (he ▸ List.mem_map_of_mem Prod.fst hp)
  rw [this]
  rfl

theorem goMapLookup_append_ne (pairs : List (String × α)) (key : String) (obj : α)
    (k : String) (hk : k ≠ key) :
    goMapLookup (pairs ++ [(key, obj)]) k = goMapLookup pairs k := by
  unfold goMapLookup
  rw [List.find?_append]
  have hsingle : ([(key, obj)] : List (String × α)).find? (fun p => p.1 == k) = none := by
    rw [List.find?_eq_none]
    intro p hp
    rw [List.mem_singleton] at hp
    subst hp
    simp only [beq_iff_eq]
    exact fun he => hk he.symm
  rw [hsingle, Option.or_none]

theorem goMapLookup_append_self (pairs : List (String × α)) (key : String) (obj : α)
    (h : key ∉ pairs.map Prod.fst) :
    goMapLookup (pairs ++ [(key, obj)]) key = some obj := by
  unfold goMapLookup
  rw [List.find?_append]
  have hnone : pairs.find? (fun p => p.1 == key) = none := by
    rw [List.find?_eq_none]
    intro p hp
    simp only [beq_iff_eq]
    intro he
    exact h (he ▸ List.mem_map_of_mem Prod.fst hp)
  rw [hnone]
  simp [List.find?]

theorem indicesOk_replace_fold (idxrs : GoIndexers α)
    (hnd : (idxrs.map Prod.fst).Nodup) :
    ∀ (rest processed : List (String × α)) (ind : GoIndices),
      ((processed ++ rest).map Prod.fst).Nodup →
      ((∀ n f, (n, f) ∈ idxrs → ∀ v k,
          k ∈ ((ind n v).getD ∅) ↔ ∃ o, goMapLookup processed k = some o ∧ v ∈ f o) ∧
        (∀ n v b, ind n v = some b → b.Nonempty)) →
      ((∀ n f, (n, f) ∈ idxrs → ∀ v k,
          k ∈ (((rest.foldl (fun ind p => updateIndices idxrs none p.2 p.1 ind) ind)
            n v).getD ∅) ↔
            ∃ o, goMapLookup (processed ++ rest) k = some o ∧ v ∈ f o) ∧
        (∀ n v b,
          (rest.foldl (fun ind p => updateIndices idxrs none p.2 p.1 ind) ind) n v
            = some b → b.Nonempty)) := by
  intro rest
  induction rest with
  | nil =>
    intro processed ind _ h
    simpa using h
  | cons p rest' ih =>
    intro processed ind hnodup h
    rcases h with ⟨hmm, hne⟩
    rw [List.foldl_cons]
    have hkeynot : p.1 ∉ processed.map Prod.fst := by
      intro hmem
      rw [List.map_append, List.nodup_append] at hnodup
      exact hnodup.2.2 hmem (by
        rw [List.map_cons]
        exact List.mem_cons_self _ _)
    have hstep : (∀ n f, (n, f) ∈ idxrs → ∀ v k,
        k ∈ (((updateIndices idxrs none p.2 p.1 ind) n v).getD ∅) ↔
          ∃ o, goMapLookup (processed ++ [p]) k = some o ∧ v ∈ f o) ∧
        (∀ n v b, (updateIndices idxrs none p.2 p.1 ind) n v = some b → b.Nonempty) := by
      constructor
      · intro n f hf v k
        rw [mem_updateIndices idxrs hnd none p.2 p.1 ind n f hf v k, oldHits_none]
        rw [hmm n f hf v k]
        by_cases hk : k = p.1
        · subst hk
          rw [goMapLookup_append_self processed p.1 p.2 hkeynot]
          have hl : goMapLookup processed p.1 = none :=
            goMapLookup_not_mem processed p.1 hkeynot
          rw [hl]
          constructor
          · rintro (⟨⟨o, ho, _⟩, _⟩ | ⟨_, hv⟩)
            · cases ho
            · exact ⟨p.2, rfl, hv⟩
          · rintro ⟨o, ho, hv⟩
            cases Option.some.inj ho
            exact Or.inr ⟨rfl, hv⟩
        · rw [goMapLookup_append_ne processed p.1 p.2 k hk]
          constructor
          · rintro (⟨hex, _⟩ | ⟨hkk, _⟩)
            · exact hex
            · exact absurd hkk hk
          · intro hex
            exact Or.inl ⟨hex, fun hc => hk hc.1⟩
      · exact updateIndices_nonempty idxrs none p.2 p.1 ind hne
    have hassoc : processed ++ p :: rest' = (processed ++ [p]) ++ rest' := by
      simp
    rw [hassoc] at hnodup ⊢
    exact ih (processed ++ [p]) (updateIndices idxrs none p.2 p.1 ind) hnodup hstep

theorem indicesOk_replace (idxrs : GoIndexers α)
    (hnd : (idxrs.map Prod.fst).Nodup) (pairs : List (String × α))
    (hkeys : (pairs.map Prod.fst).Nodup) (c : ThreadSafeMap α) :
    IndicesOk idxrs (tsmReplace idxrs pairs c) := by
  have hbase : (∀ n f, (n, f) ∈ idxrs → ∀ v k,
      k ∈ (((fun _ _ => none : GoIndices) n v).getD ∅) ↔
        ∃ o, goMapLookup ([] : List (String × α)) k = some o ∧ v ∈ f o) ∧
      (∀ n v b, (fun _ _ => none : GoIndices) n v = some b → b.Nonempty) := by
    constructor
    · intro n f _ v k
      constructor
      · intro hk
        exact absurd hk (Finset.not_mem_empty k)
      · rintro ⟨o, ho, _⟩
        cases ho
    · intro n v b hb
      cases hb
  have := indicesOk_replace_fold idxrs hnd pairs [] (fun _ _ => none)
    (by simpa using hkeys) hbase
  rcases this with ⟨h1, h2⟩
  constructor
  · intro n f hf v k
    have := h1 n f hf v k
    simpa [tsmReplace, bucketOf] using this
  · intro n v b
    exact h2 n v b

theorem indicesOk_applyStoreOp (idxrs : GoIndexers α)
    (hnd : (idxrs.map Prod.fst).Nodup) (c : ThreadSafeMap α) (op : StoreOp α)
    (hop : ∀ pairs, op = StoreOp.replace pairs → (pairs.map Prod.fst).Nodup)
    (h : IndicesOk idxrs c) : IndicesOk idxrs (applyStoreOp idxrs c op) := by
  cases op with
  | add key obj => exact indicesOk_add idxrs hnd key obj c h
  | update key obj => exact indicesOk_update idxrs hnd key obj c h
  | delete key => exact indicesOk_delete idxrs hnd key c h
  | replace pairs => exact indicesOk_replace idxrs hnd pairs (hop pairs rfl) c

theorem indicesOk_empty (idxrs : GoIndexers α) :
    IndicesOk idxrs (emptyThreadSafeMap : ThreadSafeMap α) := by
  constructor
  · intro n f _ v k
    constructor
    · intro hk
      exact absurd hk (Finset.not_mem_empty k)
    · rintro ⟨o, ho, _⟩
      cases ho
  · intro n v b hb
    cases hb

theorem indicesOk_applyStoreOps (idxrs : GoIndexers α)
    (hnd : (idxrs.map Prod.fst).Nodup) (c : ThreadSafeMap α)
    (ops : List (StoreOp α))
    (hops : ∀ pairs, StoreOp.replace pairs ∈ ops → (pairs.map Prod.fst).Nodup)
    (h : IndicesOk idxrs c) : IndicesOk idxrs (applyStoreOps idxrs c ops) := by
  induction ops generalizing c with
  | nil => exact h
  | cons op rest ih =>
    refine ih (applyStoreOp idxrs c op)
      (fun pairs hp => hops pairs (List.mem_cons_of_mem op hp)) ?_
    refine indicesOk_applyStoreOp idxrs hnd c op ?_ h
    intro pairs he
    exact hops pairs (he ▸ List.mem_cons_self op rest)

/-- C1: starting from `NewThreadSafeStore` with empty items and empty
indices, after any sequence of `Add`/`Update`/`Delete`/`Replace`
operations (with registered indexer names distinct, and each `Replace`
argument a genuine map, i.e. with distinct keys), for every registered
index name `n` with index function `f`, every index value `v` and every
key `k`: `k` is in the bucket `indices[n][v]` iff `k` is present in
`items` and `v` is among `f(items[k])`; moreover every stored bucket is
non-empty (empty buckets are removed eagerly). -/
theorem threadSafeStore_index_consistency (idxrs : GoIndexers α)
    (ops : List (StoreOp α)) (hnd : (idxrs.map Prod.fst).Nodup)
    (hops : ∀ pairs, StoreOp.replace pairs ∈ ops → (pairs.map Prod.fst).Nodup) :
    (∀ n f, (n, f) ∈ idxrs → ∀ v k,
        k ∈ bucketOf (applyStoreOps idxrs emptyThreadSafeMap ops) n v ↔
          ∃ o, (applyStoreOps idxrs emptyThreadSafeMap ops).items k = some o ∧
            v ∈ f o) ∧
      ∀ n v b, (applyStoreOps idxrs emptyThreadSafeMap ops).indices n v = some b →
        b.Nonempty :=
  indicesOk_applyStoreOps idxrs hnd emptyThreadSafeMap ops hops (indicesOk_empty idxrs)

/-- C1 witness: with one registered indexer indexing a string object by
itself, after `Add "k1" "foo"; Add "k2" "foo"; Delete "k1"` the bucket
for value `"foo"` still contains `"k2"`. -/
theorem threadSafeStore_index_consistency_witness :
    "k2" ∈ bucketOf
      (applyStoreOps [("byVal", fun o : String => [o])] emptyThreadSafeMap
        [StoreOp.add "k1" "foo", StoreOp.add "k2" "foo", StoreOp.delete "k1"])
      "byVal" "foo" :=
  ((threadSafeStore_index_consistency [("byVal", fun o : String => [o])]
      [StoreOp.add "k1" "foo", StoreOp.add "k2" "foo", StoreOp.delete "k1"]
      (by simp)
      (by
        intro pairs hp
        simp only [List.mem_cons] at hp
        rcases hp with h | h | h | h <;> cases h)).1
    "byVal" (fun o : String => [o]) (List.mem_cons_self _ _) "foo" "k2").mpr
    ⟨"foo", by decide, by decide⟩

/-! ## tools/cache/store.go: the `cache` Store/Indexer implementation -/

/-- `KeyError`: returned whenever the key function fails; carries the
object at fault and the underlying cause. -/
structure KeyError (α ε : Type) where
  obj : α
  err : ε

/-- The `cache` struct: a thread-safe storage plus the key function
(`KeyFunc` returns a key or an error). -/
structure GoCache (α ε : Type) where
  cacheStorage : ThreadSafeMap α
  keyFunc : α → Except ε String

/-- `cache.Add`: compute the key; on failure return `KeyError{obj, err}`
without touching the storage; otherwise add to the storage. -/
def cacheAdd (idxrs : GoIndexers α) (c : GoCache α ε) (obj : α) :
    Option (KeyError α ε) × GoCache α ε :=
  match c.keyFunc obj with
  | .error e => (some ⟨obj, e⟩, c)
  | .ok key => (none, { c with cacheStorage := tsmAdd idxrs key obj c.cacheStorage })

/-- `cache.Update`: same shape as `Add`. -/
def cacheUpdate (idxrs : GoIndexers α) (c : GoCache α ε) (obj : α) :
    Option (KeyError α ε) × GoCache α ε :=
  match c.keyFunc obj with
  | .error e => (some ⟨obj, e⟩, c)
  | .ok key => (none, { c with cacheStorage := tsmUpdate idxrs key obj c.cacheStorage })

/-- `cache.Delete`: compute the key; on failure return `KeyError{obj, err}`
without touching the storage; otherwise delete from the storage. -/
def cacheDelete (idxrs : GoIndexers α) (c : GoCache α ε) (obj : α) :
    Option (KeyError α ε) × GoCache α ε :=
  match c.keyFunc obj with
  | .error e => (some ⟨obj, e⟩, c)
  | .ok key => (none, { c with cacheStorage := tsmDelete idxrs key c.cacheStorage })

/-- The key-building loop of `cache.Replace`: fold the list into the
`items` map entry list (upserting, as Go map assignment does), returning
the `KeyError` of the first object whose key cannot be computed. -/
def cacheReplaceBuild (keyFunc : α → Except ε String) (acc : List (String × α)) :
    List α → Except (KeyError α ε) (List (String × α))
  | [] => .ok acc
  | item :: rest =>
    match keyFunc item with
    | .error e => .error ⟨item, e⟩
    | .ok key =>
      cacheReplaceBuild keyFunc
        ((acc.filter (fun p => !(p.1 == key))) ++ [(key, item)]) rest

/-- `cache.Replace`: build the items map from the list; a key-function
failure returns the `KeyError` at once — before `cacheStorage.Replace` is
called, so the storage is left untouched; on success replace the
storage. -/
def cacheReplaceRun (idxrs : GoIndexers α) (c : GoCache α ε) (list : List α) :
    Option (KeyError α ε) × GoCache α ε :=
  match cacheReplaceBuild c.keyFunc [] list with
  | .error ke => (some ke, c)
  | .ok pairs =>
    (none, { c with cacheStorage := tsmReplace idxrs pairs c.cacheStorage })

/-- A key function for the C4 counterexample: objects are `Option String`
values; `some s` has key `s`, `none` has no key. -/
def optKeyFunc : Option String → Except Unit String
  | some s => .ok s
  | none => .error ()

/-- The empty cache over that key function. -/
def optCache : GoCache (Option String) Unit :=
  ⟨emptyThreadSafeMap, optKeyFunc⟩

/-- C4 counterexample: replacing with the two-element list
`[some "a", none]`, where the key function fails on the second item only,
returns a `KeyError` for that item but aborts the whole `Replace`: the
first item is *not* installed (the store still has no entry for `"a"`),
contradicting "the replacement of the remaining items still takes
effect". -/
theorem cache_replace_counterexample :
    cacheReplaceRun [] optCache [some "a", none] = (some ⟨none, ()⟩, optCache) ∧
      (cacheReplaceRun [] optCache [some "a", none]).2.cacheStorage.items "a" = none :=
  ⟨rfl, rfl⟩

theorem cacheReplaceBuild_error (keyFunc : α → Except ε String) :
    ∀ (list : List α) (acc : List (String × α)),
      (∃ x ∈ list, ∃ e, keyFunc x = .error e) →
      ∃ x ∈ list, ∃ e, keyFunc x = .error e ∧
        cacheReplaceBuild keyFunc acc list = .error ⟨x, e⟩ := by
  intro list
  induction list with
  | nil =>
    rintro acc ⟨x, hx, _⟩
    exact absurd hx (List.not_mem_nil x)
  | cons item rest ih =>
    rintro acc ⟨x, hx, e, he⟩
    rcases hki : keyFunc item with ei | key
    · refine ⟨item, List.mem_cons_self _ _, ei, hki, ?_⟩
      unfold cacheReplaceBuild
      rw [hki]
    · have hxr : x ∈ rest := by
        rcases List.mem_cons.mp hx with h | h
        · subst h
          rw [hki] at he
          cases he
        · exact h
      rcases ih ((acc.filter (fun p => !(p.1 == key))) ++ [(key, item)])
          ⟨x, hxr, e, he⟩ with ⟨y, hy, e', he', hbuild⟩
      refine ⟨y, List.mem_cons_of_mem item hy, e', he', ?_⟩
      unfold cacheReplaceBuild
      rw [hki]
      exact hbuild

/-- C4 (amended): a key-function failure during `cache.Replace` aborts
the entire replace and returns a `KeyError` identifying a failing object
of the list; the underlying store is left completely unchanged (no item
of the list takes effect). -/
theorem cache_replace_keyError_aborts (idxrs : GoIndexers α) (c : GoCache α ε)
    (list : List α) (hfail : ∃ x ∈ list, ∃ e, c.keyFunc x = .error e) :
    (cacheReplaceRun idxrs c list).2 = c ∧
      ∃ x ∈ list, ∃ e, c.keyFunc x = .error e ∧
        (cacheReplaceRun idxrs c list).1 = some ⟨x, e⟩ := by
  rcases cacheReplaceBuild_error c.keyFunc list [] hfail with ⟨x, hx, e, he, hbuild⟩
  unfold cacheReplaceRun
  rw [hbuild]
  exact ⟨rfl, x, hx, e, he, rfl⟩

/-- C4 witness: the amended theorem applied to the counterexample
input. -/
theorem cache_replace_keyError_aborts_witness :
    (cacheReplaceRun [] optCache [some "a", none]).2 = optCache :=
  (cache_replace_keyError_aborts [] optCache [some "a", none]
    ⟨none, by decide, (), rfl⟩).1

/-- C9: when the key function fails on an object, `cache.Add`,
`cache.Update` and `cache.Delete` each return a `KeyError` carrying the
object and the underlying cause, and leave the cache — items and indices —
completely unchanged. -/
theorem cache_keyError_leaves_store_unchanged (idxrs : GoIndexers α)
    (c : GoCache α ε) (obj : α) (e : ε) (h : c.keyFunc obj = .error e) :
    cacheAdd idxrs c obj = (some ⟨obj, e⟩, c) ∧
      cacheUpdate idxrs c obj = (some ⟨obj, e⟩, c) ∧
      cacheDelete idxrs c obj = (some ⟨obj, e⟩, c) := by
  refine ⟨?_, ?_, ?_⟩
  · unfold cacheAdd
    rw [h]
  · unfold cacheUpdate
    rw [h]
  · unfold cacheDelete
    rw [h]

/-- C9 witness: the failing object `none` under `optKeyFunc`. -/
theorem cache_keyError_leaves_store_unchanged_witness :
    cacheAdd [] optCache none = (some ⟨none, ()⟩, optCache) :=
  (cache_keyError_leaves_store_unchanged [] optCache none () rfl).1

end ClientGo
